import Mathlib

/-!
Verification of the fheroes2 world-map pathfinding engine
(`src/fheroes2/world/world_pathfinding.h`).

The repository ships only the header of this component; the class layout,
member initializers and signatures below are embedded from that header, while
the bodies of the member functions (which live in the missing
`world_pathfinding.cpp` / `pathfinding.h`) are modelled from the specification,
as marked on each definition.

Machine integers (`uint32_t`) are modelled as `Nat`; the C++ subtractions in
`subtractMovePoints` are guarded in the source so that no wrap-around occurs,
which truncated `Nat` subtraction captures exactly.  The `double` quantities
(army strength, advantage coefficient, reserve factors) are modelled as `ℚ`.
-/

namespace WorldPathfinding

/-- Modelled from the spec: `WorldPathfinder::subtractMovePoints(movePoints,
subtractedMovePoints)` (declared at `world_pathfinding.h:94`, body in the
missing `world_pathfinding.cpp`): if `cost ≤ current` it returns
`current − cost`, otherwise `max(0, maxMovePoints − (cost − current))`
(the turn-boundary rule).  `maxMovePoints` is the cached `_maxMovePoints`
member, passed here explicitly. -/
def subtractMovePoints (maxMovePoints movePoints subtractedMovePoints : Nat) : Nat :=
  if subtractedMovePoints ≤ movePoints then
    movePoints - subtractedMovePoints
  else
    maxMovePoints - (subtractedMovePoints - movePoints)

/-- Modelled from the spec: the guarded-tile rule of
`AIWorldPathfinder::processCurrentNode` (declared at `world_pathfinding.h:186`,
body in the missing `world_pathfinding.cpp`): a tile guarded by a hostile
force is expandable (added to the exploration frontier) iff
`armyStrength ≥ guardStrength × minimalArmyStrengthAdvantage`. -/
def aiGuardedTilePassable (armyStrength guardStrength advantage : ℚ) : Bool :=
  decide (guardStrength * advantage ≤ armyStrength)

/-- Claim C1: `subtractMovePoints(current, cost)` returns `current − cost` when
`cost ≤ current` and `max(0, maxMovePoints − (cost − current))` otherwise; in
particular `subtractMovePoints(3, 5)` with `maxMovePoints = 10` is `8`,
`subtractMovePoints(10, 4)` is `6`, and the result is never negative. -/
theorem subtractMovePoints_spec :
    (∀ maxMP cur cost : Nat,
      ((subtractMovePoints maxMP cur cost : Int) =
        if cost ≤ cur then (cur : Int) - (cost : Int)
        else max 0 ((maxMP : Int) - ((cost : Int) - (cur : Int))))
      ∧ 0 ≤ (subtractMovePoints maxMP cur cost : Int))
    ∧ subtractMovePoints 10 3 5 = 8 ∧ subtractMovePoints 10 10 4 = 6 := by
  refine ⟨fun maxMP cur cost => ⟨?_, ?_⟩, by decide, by decide⟩
  · by_cases h : cost ≤ cur
    · rw [if_pos h]
      simp only [subtractMovePoints, if_pos h]
      omega
    · rw [if_neg h]
      simp only [subtractMovePoints, if_neg h]
      omega
  · exact Int.ofNat_nonneg _

/-- Claim C2: a guarded tile is expandable under the AI policy iff
`armyStrength ≥ guardStrength × minimalArmyStrengthAdvantage`; the boundary
case guard strength 100, army strength 150, advantage 1.5 (equality) is
passable. -/
theorem aiGuardedTilePassable_spec :
    (∀ armyStrength guardStrength advantage : ℚ,
      aiGuardedTilePassable armyStrength guardStrength advantage = true ↔
        guardStrength * advantage ≤ armyStrength)
    ∧ aiGuardedTilePassable 150 100 (3 / 2) = true := by
  refine ⟨fun a g adv => ?_, ?_⟩
  · simp [aiGuardedTilePassable]
  · rw [aiGuardedTilePassable, decide_eq_true_eq]
    norm_num

/-- Witness for claim C2: the characterization applied at a concrete input. -/
theorem aiGuardedTilePassable_spec_witness :
    aiGuardedTilePassable 160 100 (3 / 2) = true :=
  (aiGuardedTilePassable_spec.1 160 100 (3 / 2)).mpr (by norm_num)

/-- Claim C5: guarded-tile passability is antitone in the advantage coefficient:
for fixed (non-negative) guard strength, if a tile is passable under `a2` and
`a1 ≤ a2` then it is passable under `a1`. -/
theorem aiGuardedTilePassable_antitone (armyStrength guardStrength a1 a2 : ℚ)
    (hg : 0 ≤ guardStrength) (h12 : a1 ≤ a2)
    (h : aiGuardedTilePassable armyStrength guardStrength a2 = true) :
    aiGuardedTilePassable armyStrength guardStrength a1 = true := by
  rw [aiGuardedTilePassable, decide_eq_true_eq] at h ⊢
  calc guardStrength * a1 ≤ guardStrength * a2 := by
        exact mul_le_mul_of_nonneg_left h12 hg
    _ ≤ armyStrength := h

/-- Witness for claim C5: a concrete instance (guard 100, army 150,
advantages 1 ≤ 3/2). -/
theorem aiGuardedTilePassable_antitone_witness :
    aiGuardedTilePassable 150 100 1 = true :=
  aiGuardedTilePassable_antitone 150 100 1 (3 / 2) (by norm_num) (by norm_num)
    (by rw [aiGuardedTilePassable, decide_eq_true_eq]; norm_num)

/-- Structure `WorldNode` (from `world_pathfinding.h:40-64` together with the spec's
description of `PathfindingNode`, whose header is missing): per-tile search
node holding the cumulative cost (`_cost`), the predecessor tile (`_from`,
`-1`/`none` when absent), the discovered map-object type (`_objectID`,
modelled as an opaque `Nat`) and the remaining movement points on arrival
(`_remainingMovePoints`). A tile whose cache entry is `none` was never
relaxed (the "uncomputed" sentinel). -/
structure WorldNode where
  cost : Nat
  fromIdx : Option Nat
  objectType : Nat
  remainingMovePoints : Nat
deriving DecidableEq, Repr

/-- Modelled from the spec (§6 external interfaces and §4.1): the read-only
collaborator data consumed by one `processWorldMap` recomputation — the map
size, the 8-directional adjacency, the pluggable per-edge movement penalty
(`getMovementPenalty`; `none` is the "impassable" sentinel), the traversal
policy's expansion decision for a non-start node (`processCurrentNode`'s
dead-end rule), the object occupying each tile, and the agent-derived data
(start tile, movement points remaining at the start, `_maxMovePoints`). -/
structure SearchEnv where
  n : Nat
  neighbors : Nat → List Nat
  penalty : Nat → Nat → Option Nat
  expandable : Nat → Bool
  objectAt : Nat → Nat
  start : Nat
  startRemaining : Nat
  maxMovePoints : Nat

/-- Well-formedness of the collaborator data: the start tile is on the map,
and each on-map tile's adjacency list has no duplicates and stays on the map. -/
def WFEnv (env : SearchEnv) : Prop :=
  env.start < env.n ∧
    ∀ u, u < env.n → (env.neighbors u).Nodup ∧ ∀ v ∈ env.neighbors u, v < env.n

instance (env : SearchEnv) : Decidable (WFEnv env) := by
  unfold WFEnv; infer_instance

/-- The mutable state of one recomputation: the node cache plus the frontier
work list (`nodesToExplore`). -/
structure SearchState where
  cache : Nat → Option WorldNode
  frontier : List Nat

/-- Expansion condition of `processCurrentNode`: the start node is always
expanded; any other node only if the policy allows it. -/
def expandCond (env : SearchEnv) (u : Nat) : Bool :=
  decide (u = env.start) || env.expandable u

/-- The node written for tile `v` when the edge `u → v` with penalty `p` is
relaxed from `u`'s node `ndu`: candidate cumulative cost, predecessor link to
`u`, the object on `v`, and the movement points remaining after the step
(turn-boundary arithmetic via `subtractMovePoints`). -/
def updatedNode (env : SearchEnv) (u v : Nat) (ndu : WorldNode) (p : Nat) : WorldNode :=
  ⟨ndu.cost + p, some u, env.objectAt v,
    subtractMovePoints env.maxMovePoints ndu.remainingMovePoints p⟩

/-- Modelled from the spec (§4.1 `checkAdjacentNodes`, one neighbor): compute
the step penalty from `u` to `v`; if `v` is unvisited or the candidate
cumulative cost is strictly lower than its cached cost, update `v`'s node
(cost, predecessor, object, remaining movement points via
`subtractMovePoints`) and re-enqueue `v`. -/
def relaxEdge (env : SearchEnv) (u v : Nat) (st : SearchState) : SearchState :=
  match st.cache u with
  | none => st
  | some ndu =>
    match env.penalty u v with
    | none => st
    | some p =>
      let doUpdate : Bool :=
        match st.cache v with
        | none => true
        | some ndv => decide (ndu.cost + p < ndv.cost)
      if doUpdate then
        { cache := Function.update st.cache v (some (updatedNode env u v ndu p)),
          frontier := st.frontier ++ [v] }
      else st

/-- Modelled from the spec: `WorldPathfinder::checkAdjacentNodes`
(`world_pathfinding.h:82`): relax every grid neighbor of the current node. -/
def checkAdjacentNodes (env : SearchEnv) (u : Nat) (st : SearchState) : SearchState :=
  (env.neighbors u).foldl (fun s v => relaxEdge env u v s) st

/-- Modelled from the spec: processing of one popped frontier node — the
policy's `processCurrentNode` either expands the node's neighbors or treats
it as a dead end. -/
def processCurrentNode (env : SearchEnv) (u : Nat) (st : SearchState) : SearchState :=
  if expandCond env u then checkAdjacentNodes env u st else st

/-- Modelled from the spec: the frontier-driven relaxation loop of
`processWorldMap`, fuelled (the fuel needed for completion is produced by
`stateMeasure` below; claim C8 proves it suffices). -/
def processWorldMapLoop (env : SearchEnv) : Nat → SearchState → SearchState
  | 0, st => st
  | fuel + 1, st =>
    match st.frontier with
    | [] => st
    | u :: rest =>
      processWorldMapLoop env fuel (processCurrentNode env u { st with frontier := rest })

/-- Modelled from the spec: the freshly cleared cache seeded with the agent's
start tile at zero cost, and the frontier holding just the start tile. -/
def initState (env : SearchEnv) : SearchState :=
  { cache := Function.update (fun _ => none) env.start
      (some ⟨0, none, env.objectAt env.start, env.startRemaining⟩),
    frontier := [env.start] }

/-- Sum of the movement penalties of all edges leaving tile `u`. -/
def rowPenaltySum (env : SearchEnv) (u : Nat) : Nat :=
  ((env.neighbors u).map fun v => (env.penalty u v).getD 0).sum

/-- Sum of the movement penalties of all edges of the map. -/
def totalPenaltySum (env : SearchEnv) : Nat :=
  (Finset.range env.n).sum fun u => rowPenaltySum env u

/-- Potential of one tile: its cached cumulative cost, or `totalPenaltySum + 1`
when unvisited (every reachable cumulative cost is at most `totalPenaltySum`). -/
def nodePotential (env : SearchEnv) (cache : Nat → Option WorldNode) (t : Nat) : Nat :=
  match cache t with
  | none => totalPenaltySum env + 1
  | some nd => nd.cost

/-- Termination measure of the label-correcting loop: twice the total tile
potential plus the frontier length.  Each loop iteration strictly decreases it. -/
def stateMeasure (env : SearchEnv) (st : SearchState) : Nat :=
  2 * ((Finset.range env.n).sum fun t => nodePotential env st.cache t) + st.frontier.length

/-- Modelled from the spec: `WorldPathfinder::processWorldMap`
(`world_pathfinding.h:81`): one full recomputation — clear the cache, seed the
start tile, and run the relaxation loop until the frontier is empty (the
initial `stateMeasure` is enough fuel, by claim C8). -/
def processWorldMap (env : SearchEnv) : SearchState :=
  processWorldMapLoop env (stateMeasure env (initState env)) (initState env)

/-- The `uint32_t` "uncomputed" sentinel cost returned for unreachable tiles. -/
def uncomputedCost : Nat := 4294967295

/-- Modelled from the spec: the base `Pathfinder::getDistance` cache read —
the cumulative cost of the target's node, or the "uncomputed" sentinel when
the tile was never relaxed. -/
def getDistanceFromCache (cache : Nat → Option WorldNode) (targetIndex : Nat) : Nat :=
  match cache targetIndex with
  | none => uncomputedCost
  | some nd => nd.cost

/-- Modelled from the spec: `AIWorldPathfinder::getDistance`
(`world_pathfinding.h:152`): run the (hypothetical-agent) re-evaluation, i.e.
a full `processWorldMap`, then serve the cumulative cost from the cache. -/
def aiGetDistance (env : SearchEnv) (targetIndex : Nat) : Nat :=
  getDistanceFromCache (processWorldMap env).cache targetIndex

/-- Modelled from the spec: route reconstruction of `buildPath`
(`world_pathfinding.h:118`): walk predecessor links back from the target,
reversing the chain into forward order (here a route is the list of visited
tile indices); the walk is empty when the target equals the start or was
never relaxed. `fuel` bounds the walk length (the map size suffices). -/
def buildPathWalk (cache : Nat → Option WorldNode) (start : Nat) :
    Nat → Nat → List Nat
  | 0, _ => []
  | fuel + 1, current =>
    if current = start then []
    else
      match cache current with
      | none => []
      | some nd =>
        match nd.fromIdx with
        | none => []
        | some p => buildPathWalk cache start fuel p ++ [current]

/-- Modelled from the spec: `buildPath(targetIndex)` — empty for the start
tile itself and for tiles never relaxed (unreachable). -/
def buildPath (cache : Nat → Option WorldNode) (start targetIndex fuel : Nat) :
    List Nat :=
  buildPathWalk cache start fuel targetIndex

/-- One predecessor link of the cache, together with the facts the relaxation
loop guarantees when it writes such a link: `t`'s node points back to `u`,
`t` is a neighbor of `u` reached with some penalty `p`, the link was written
while `u` was being expanded, and `u`'s (current) cost plus `p` is at most
`t`'s cost (it was equal when written; `u`'s cost can only have decreased
since). -/
def LinkCond (env : SearchEnv) (cache : Nat → Option WorldNode) (t u : Nat) : Prop :=
  ∃ ndt ndu p, cache t = some ndt ∧ ndt.fromIdx = some u ∧ cache u = some ndu ∧
    env.penalty u t = some p ∧ ndu.cost + p ≤ ndt.cost ∧
    t ∈ env.neighbors u ∧ expandCond env u = true

/-- A chain of predecessor links from `t` back to the start tile; `π` lists
the successive predecessors of `t` (so `π = []` iff `t` is the start). -/
inductive ChainToStart (env : SearchEnv) (cache : Nat → Option WorldNode) :
    Nat → List Nat → Prop
  | base : ChainToStart env cache env.start []
  | step (t u : Nat) (rest : List Nat) : LinkCond env cache t u →
      ChainToStart env cache u rest → ChainToStart env cache t (u :: rest)

/-- A duplicate-free walk `π` (listed target-first, ending at the start tile)
whose step penalties sum to exactly `c`, and along which every visited tile is
cached with cost at most the partial penalty sum.  Every cached cost is of
this shape, which bounds it by `totalPenaltySum`. -/
inductive ExactPath (env : SearchEnv) (cache : Nat → Option WorldNode) :
    Nat → Nat → List Nat → Prop
  | base (nd : WorldNode) : cache env.start = some nd → nd.cost = 0 →
      ExactPath env cache env.start 0 [env.start]
  | step (u v p c : Nat) (π : List Nat) (ndv : WorldNode) :
      ExactPath env cache u c π → v ∈ env.neighbors u →
      env.penalty u v = some p → v ∉ π → cache v = some ndv →
      ndv.cost ≤ c + p → ExactPath env cache v (c + p) (v :: π)

/-- A chain of predecessor links from the start tile out to a tile, along
which every node's cumulative cost equals its predecessor's cumulative cost
plus the step's movement penalty; the second index is the total penalty sum of
the chain (equal to the final node's cumulative cost). -/
inductive PredChainSum (env : SearchEnv) (cache : Nat → Option WorldNode) :
    Nat → Nat → Prop
  | base (nd : WorldNode) : cache env.start = some nd → nd.fromIdx = none →
      nd.cost = 0 → PredChainSum env cache env.start 0
  | step (u v p c : Nat) (ndv : WorldNode) : PredChainSum env cache u c →
      cache v = some ndv → ndv.fromIdx = some u → env.penalty u v = some p →
      ndv.cost = c + p → PredChainSum env cache v (c + p)

/-- A chain of predecessor links with *strictly decreasing* cumulative cost
toward the start (the literal reading of claim C3); the second index is the
total penalty sum of the chain. -/
inductive StrictChainSum (env : SearchEnv) (cache : Nat → Option WorldNode) :
    Nat → Nat → Prop
  | base (nd : WorldNode) : cache env.start = some nd → nd.fromIdx = none →
      StrictChainSum env cache env.start 0
  | step (u v p c : Nat) (ndu ndv : WorldNode) : StrictChainSum env cache u c →
      cache v = some ndv → ndv.fromIdx = some u → cache u = some ndu →
      ndu.cost < ndv.cost → env.penalty u v = some p →
      StrictChainSum env cache v (c + p)

/-- The edge `u → v` is relaxed: if it carries a penalty, `v` is cached with
cost at most `u`'s cost plus that penalty. -/
def RelaxedEdge (env : SearchEnv) (cache : Nat → Option WorldNode) (u v : Nat) : Prop :=
  ∀ p, env.penalty u v = some p →
    ∃ ndv ndu, cache v = some ndv ∧ cache u = some ndu ∧ ndv.cost ≤ ndu.cost + p

/-- A node all of whose outgoing edges are relaxed (vacuous for dead ends,
which the policy never expands). -/
def SettledNode (env : SearchEnv) (cache : Nat → Option WorldNode) (u : Nat) : Prop :=
  expandCond env u = true → ∀ v ∈ env.neighbors u, RelaxedEdge env cache u v

/-- Core loop invariant of `processWorldMap`:
the start tile is anchored at cost `0` with no predecessor; cache and frontier
stay on the map; every frontier entry is cached; every cached tile has a
predecessor chain to the start; and every cached cost is the exact penalty sum
of a duplicate-free walk from the start. -/
structure InvCore (env : SearchEnv) (st : SearchState) : Prop where
  startAnchor : ∃ nd, st.cache env.start = some nd ∧ nd.cost = 0 ∧ nd.fromIdx = none
  cacheRange : ∀ t nd, st.cache t = some nd → t < env.n
  frontierRange : ∀ u ∈ st.frontier, u < env.n
  frontierCached : ∀ u ∈ st.frontier, ∃ nd, st.cache u = some nd
  chains : ∀ t nd, st.cache t = some nd → ∃ π, ChainToStart env st.cache t π
  exactPaths : ∀ t nd, st.cache t = some nd → ∃ π, ExactPath env st.cache t nd.cost π

/-- Settledness invariant: every cached tile is either still awaiting
(re-)expansion on the frontier, or all its outgoing edges are relaxed. -/
def Settledness (env : SearchEnv) (st : SearchState) : Prop :=
  ∀ t nd, st.cache t = some nd → t ∈ st.frontier ∨ SettledNode env st.cache t

theorem LinkCond.transfer {env : SearchEnv} {cache cache' : Nat → Option WorldNode}
    {t u : Nat} (h : LinkCond env cache t u)
    (ht : cache' t = cache t) (hu : cache' u = cache u) :
    LinkCond env cache' t u := by
  obtain ⟨ndt, ndu, p, h1, h2, h3, h4, h5, h6, h7⟩ := h
  exact ⟨ndt, ndu, p, by rw [ht, h1], h2, by rw [hu, h3], h4, h5, h6, h7⟩

theorem ChainToStart.transportChain {env : SearchEnv} {cache cache' : Nat → Option WorldNode}
    {t : Nat} {π : List Nat} (h : ChainToStart env cache t π)
    (hkeep : ∀ w, w = t ∨ w ∈ π → cache' w = cache w) :
    ChainToStart env cache' t π := by
  induction h with
  | base => exact ChainToStart.base
  | step t u rest hlink _ ih =>
    refine ChainToStart.step t u rest
      (hlink.transfer (hkeep t (Or.inl rfl)) (hkeep u (Or.inr (List.mem_cons_self _ _)))) ?_
    exact ih fun w hw => hkeep w (Or.inr (by
      rcases hw with h | h
      · exact h ▸ List.mem_cons_self _ _
      · exact List.mem_cons_of_mem _ h))

theorem ChainToStart.chainNodesCostLe {env : SearchEnv} {cache : Nat → Option WorldNode}
    {t : Nat} {π : List Nat} (h : ChainToStart env cache t π) :
    ∀ ndt, cache t = some ndt → ∀ w ∈ π, ∃ ndw, cache w = some ndw ∧ ndw.cost ≤ ndt.cost := by
  induction h with
  | base => intro ndt _ w hw; exact absurd hw (List.not_mem_nil w)
  | step t u rest hlink _ ih =>
    intro ndt hct w hw
    obtain ⟨ndt', ndu, p, h1, _, h3, _, h5, _, _⟩ := hlink
    rw [hct] at h1
    injection h1 with h1; subst h1
    rcases List.mem_cons.mp hw with rfl | hw
    · exact ⟨ndu, h3, by omega⟩
    · obtain ⟨ndw, hw1, hw2⟩ := ih ndu h3 w hw
      exact ⟨ndw, hw1, by omega⟩

theorem mem_first_split {α : Type} {l : List α} {a : α} (h : a ∈ l) :
    ∃ s t, l = s ++ a :: t ∧ a ∉ s := by
  induction l with
  | nil => exact absurd h (List.not_mem_nil a)
  | cons x xs ih =>
    by_cases hx : a = x
    · exact ⟨[], xs, by subst hx; rfl, List.not_mem_nil a⟩
    · rcases List.mem_cons.mp h with h' | h'
      · exact absurd h' hx
      · obtain ⟨s, t, hst, hns⟩ := ih h'
        exact ⟨x :: s, t, by rw [hst]; rfl, by
          intro hc
          rcases List.mem_cons.mp hc with h'' | h''
          · exact hx h''
          · exact hns h''⟩

theorem ChainToStart.splice {env : SearchEnv} {cache cache' : Nat → Option WorldNode}
    {v : Nat} {ρ : List Nat} (hρ : ChainToStart env cache' v ρ)
    (hv : ∃ ndv ndv', cache v = some ndv ∧ cache' v = some ndv' ∧ ndv'.cost ≤ ndv.cost) :
    ∀ {t : Nat} {σ τ : List Nat}, ChainToStart env cache t (σ ++ v :: τ) →
      (∀ w, w = t ∨ w ∈ σ → cache' w = cache w) →
      ChainToStart env cache' t (σ ++ v :: ρ) := by
  intro t σ
  induction σ generalizing t with
  | nil =>
    intro τ h hkeep
    cases h with
    | step _ u rest hlink hrest =>
      refine ChainToStart.step t v ρ ?_ hρ
      obtain ⟨ndt, ndv0, p, h1, h2, h3, h4, h5, h6, h7⟩ := hlink
      obtain ⟨ndv, ndv', hv1, hv2, hv3⟩ := hv
      rw [h3] at hv1
      injection hv1 with hv1; subst hv1
      exact ⟨ndt, ndv', p, by rw [hkeep t (Or.inl rfl), h1], h2, hv2, h4, by omega, h6, h7⟩
  | cons x σ' ih =>
    intro τ h hkeep
    cases h with
    | step _ _ rest hlink hrest =>
      refine ChainToStart.step t x (σ' ++ v :: ρ) ?_ ?_
      · exact hlink.transfer (hkeep t (Or.inl rfl))
          (hkeep x (Or.inr (List.mem_cons_self _ _)))
      · exact ih hrest fun w hw => hkeep w (Or.inr (by
          rcases hw with h' | h'
          · exact h' ▸ List.mem_cons_self _ _
          · exact List.mem_cons_of_mem _ h'))

theorem ExactPath.head_eq {env : SearchEnv} {cache : Nat → Option WorldNode}
    {t c : Nat} {π : List Nat} (h : ExactPath env cache t c π) :
    ∃ rest, π = t :: rest := by
  cases h with
  | base nd _ _ => exact ⟨[], rfl⟩
  | step u v p c π ndv _ _ _ _ _ _ => exact ⟨π, rfl⟩

theorem ExactPath.shape {env : SearchEnv} {cache : Nat → Option WorldNode}
    {t c : Nat} {π : List Nat} (h : ExactPath env cache t c π) (hwf : WFEnv env) :
    π.Nodup ∧ ∀ w ∈ π, w < env.n := by
  induction h with
  | base nd _ _ =>
    exact ⟨List.nodup_singleton _, fun w hw => by
      rw [List.mem_singleton.mp hw]; exact hwf.1⟩
  | step u v p c π ndv hp hvnb hpen hvπ hcv hcost ih =>
    obtain ⟨hnd, hlt⟩ := ih
    obtain ⟨rest, hrest⟩ := hp.head_eq
    have hu : u < env.n := hlt u (by rw [hrest]; exact List.mem_cons_self _ _)
    refine ⟨List.nodup_cons.mpr ⟨hvπ, hnd⟩, fun w hw => ?_⟩
    rcases List.mem_cons.mp hw with rfl | hw
    · exact (hwf.2 u hu).2 w hvnb
    · exact hlt w hw

theorem ExactPath.pathNodesCostLe {env : SearchEnv} {cache : Nat → Option WorldNode}
    {t c : Nat} {π : List Nat} (h : ExactPath env cache t c π) :
    ∀ w ∈ π, ∃ ndw, cache w = some ndw ∧ ndw.cost ≤ c := by
  induction h with
  | base nd h1 h2 =>
    intro w hw
    rw [List.mem_singleton.mp hw]
    exact ⟨nd, h1, le_of_eq h2⟩
  | step u v p c π ndv _ hvnb hpen hvπ hcv hcost ih =>
    intro w hw
    rcases List.mem_cons.mp hw with rfl | hw
    · exact ⟨ndv, hcv, hcost⟩
    · obtain ⟨ndw, hw1, hw2⟩ := ih w hw
      exact ⟨ndw, hw1, by omega⟩

theorem ExactPath.transportPath {env : SearchEnv} {cache cache' : Nat → Option WorldNode}
    {t c : Nat} {π : List Nat}
    (hmono : ∀ w nd, cache w = some nd → ∃ nd', cache' w = some nd' ∧ nd'.cost ≤ nd.cost)
    (h : ExactPath env cache t c π) : ExactPath env cache' t c π := by
  induction h with
  | base nd h1 h2 =>
    obtain ⟨nd', h1', h2'⟩ := hmono _ nd h1
    exact ExactPath.base nd' h1' (by omega)
  | step u v p c π ndv _ hvnb hpen hvπ hcv hcost ih =>
    obtain ⟨ndv', h1', h2'⟩ := hmono _ ndv hcv
    exact ExactPath.step u v p c π ndv' ih hvnb hpen hvπ h1' (by omega)

theorem ExactPath.cost_le_rowSums {env : SearchEnv} {cache : Nat → Option WorldNode}
    {t c : Nat} {π : List Nat} (h : ExactPath env cache t c π) :
    c ≤ ((π.drop 1).map (rowPenaltySum env)).sum := by
  induction h with
  | base nd _ _ => simp
  | step u v p c π ndv hp hvnb hpen hvπ hcv hcost ih =>
    obtain ⟨rest, hrest⟩ := hp.head_eq
    have hple : p ≤ rowPenaltySum env u := by
      refine List.single_le_sum (fun x _ => Nat.zero_le x) p ?_
      exact List.mem_map.mpr ⟨v, hvnb, by rw [hpen]; rfl⟩
    have : ((π).map (rowPenaltySum env)).sum
        = rowPenaltySum env u + ((rest).map (rowPenaltySum env)).sum := by
      rw [hrest]; rfl
    have hih : c ≤ ((rest).map (rowPenaltySum env)).sum := by
      have := ih
      rw [hrest] at this
      simpa using this
    simp only [List.drop_one, List.tail_cons]
    calc c + p ≤ ((rest).map (rowPenaltySum env)).sum + rowPenaltySum env u := by omega
      _ = ((π).map (rowPenaltySum env)).sum := by omega

theorem nodup_map_sum_le_range {n : Nat} {l : List Nat} (f : Nat → Nat)
    (hnd : l.Nodup) (hlt : ∀ x ∈ l, x < n) :
    (l.map f).sum ≤ (Finset.range n).sum f := by
  rw [← List.sum_toFinset f hnd]
  refine Finset.sum_le_sum_of_subset fun x hx => ?_
  rw [Finset.mem_range]
  exact hlt x (List.mem_toFinset.mp hx)

theorem ExactPath.cost_le_total {env : SearchEnv} {cache : Nat → Option WorldNode}
    {t c : Nat} {π : List Nat} (h : ExactPath env cache t c π) (hwf : WFEnv env) :
    c ≤ totalPenaltySum env := by
  obtain ⟨hnd, hlt⟩ := h.shape hwf
  calc c ≤ ((π.drop 1).map (rowPenaltySum env)).sum := h.cost_le_rowSums
    _ ≤ (Finset.range env.n).sum (rowPenaltySum env) := by
        refine nodup_map_sum_le_range (rowPenaltySum env)
          ((List.drop_sublist 1 π).nodup hnd) fun x hx => ?_
        exact hlt x (List.mem_of_mem_drop hx)
    _ = totalPenaltySum env := rfl

/-- Case analysis of one relaxation: either the state is unchanged (and, when
the source node is cached and the edge carries a penalty, the target already
meets the candidate cost), or the target's node is rewritten with the
candidate and the target is re-enqueued. -/
theorem relaxEdge_cases (env : SearchEnv) (u v : Nat) (st : SearchState) :
    (relaxEdge env u v st = st ∧
      (st.cache u = none ∨ env.penalty u v = none ∨
        ∃ ndu p ndv, st.cache u = some ndu ∧ env.penalty u v = some p ∧
          st.cache v = some ndv ∧ ndv.cost ≤ ndu.cost + p)) ∨
    ∃ ndu p, st.cache u = some ndu ∧ env.penalty u v = some p ∧
      (st.cache v = none ∨ ∃ ndv, st.cache v = some ndv ∧ ndu.cost + p < ndv.cost) ∧
      relaxEdge env u v st =
        { cache := Function.update st.cache v (some (updatedNode env u v ndu p)),
          frontier := st.frontier ++ [v] } := by
  unfold relaxEdge
  cases hcu : st.cache u with
  | none => exact Or.inl ⟨rfl, Or.inl rfl⟩
  | some ndu =>
    cases hpen : env.penalty u v with
    | none => exact Or.inl ⟨rfl, Or.inr (Or.inl rfl)⟩
    | some p =>
      cases hcv : st.cache v with
      | none =>
        exact Or.inr ⟨ndu, p, rfl, rfl, Or.inl rfl, by simp⟩
      | some ndv =>
        by_cases hlt : ndu.cost + p < ndv.cost
        · exact Or.inr ⟨ndu, p, rfl, rfl, Or.inr ⟨ndv, rfl, hlt⟩, by simp [hlt]⟩
        · exact Or.inl ⟨by simp [hlt], Or.inr (Or.inr ⟨ndu, p, ndv, rfl, rfl, rfl, by omega⟩)⟩

/-- What one (or several composed) relaxation steps performed while expanding
node `u` guarantee: the invariant is preserved, every touched tile is
re-enqueued, cached costs only decrease, the frontier only grows, `u`'s own
node is untouched, the termination measure does not increase, and
already-relaxed edges out of `u` stay relaxed. -/
structure StepSpec (env : SearchEnv) (u : Nat) (st st' : SearchState) : Prop where
  inv : InvCore env st'
  touchedEnqueued : ∀ t, st'.cache t = st.cache t ∨ t ∈ st'.frontier
  costMono : ∀ t nd, st.cache t = some nd → ∃ nd', st'.cache t = some nd' ∧ nd'.cost ≤ nd.cost
  frontierMono : ∀ x ∈ st.frontier, x ∈ st'.frontier
  sourceFixed : st'.cache u = st.cache u
  measureLe : stateMeasure env st' ≤ stateMeasure env st
  relaxKeep : ∀ w, RelaxedEdge env st.cache u w → RelaxedEdge env st'.cache u w

theorem stepSpec_refl {env : SearchEnv} {u : Nat} {st : SearchState}
    (hinv : InvCore env st) : StepSpec env u st st :=
  ⟨hinv, fun _ => Or.inl rfl, fun _ nd h => ⟨nd, h, le_rfl⟩, fun _ hx => hx,
    rfl, le_rfl, fun _ h => h⟩

theorem StepSpec.trans {env : SearchEnv} {u : Nat} {st₁ st₂ st₃ : SearchState}
    (h12 : StepSpec env u st₁ st₂) (h23 : StepSpec env u st₂ st₃) :
    StepSpec env u st₁ st₃ := by
  refine ⟨h23.inv, ?_, ?_, fun x hx => h23.frontierMono x (h12.frontierMono x hx),
    h23.sourceFixed.trans h12.sourceFixed, h23.measureLe.trans h12.measureLe,
    fun w hw => h23.relaxKeep w (h12.relaxKeep w hw)⟩
  · intro t
    rcases h23.touchedEnqueued t with h | h
    · rcases h12.touchedEnqueued t with h' | h'
      · exact Or.inl (h.trans h')
      · exact Or.inr (h23.frontierMono t h')
    · exact Or.inr h
  · intro t nd h
    obtain ⟨nd', h', hle'⟩ := h12.costMono t nd h
    obtain ⟨nd'', h'', hle''⟩ := h23.costMono t nd' h'
    exact ⟨nd'', h'', hle''.trans hle'⟩

/-- Rewriting one tile's node changes the total potential by the difference of
that tile's potentials. -/
theorem potentialSum_update (env : SearchEnv) (cache : Nat → Option WorldNode)
    {v : Nat} (hv : v < env.n) (nd : WorldNode) :
    ((Finset.range env.n).sum fun t =>
        nodePotential env (Function.update cache v (some nd)) t)
      + nodePotential env cache v
    = ((Finset.range env.n).sum fun t => nodePotential env cache t) + nd.cost := by
  have hmem : v ∈ Finset.range env.n := Finset.mem_range.mpr hv
  have h1 : (fun t => nodePotential env (Function.update cache v (some nd)) t)
      = Function.update (fun t => nodePotential env cache t) v nd.cost := by
    funext t
    by_cases ht : t = v
    · subst ht
      simp [nodePotential, Function.update_same]
    · simp [nodePotential, Function.update_noteq ht]
  rw [h1, Finset.sum_update_of_mem hmem,
    Finset.sum_eq_sum_diff_singleton_add hmem fun t => nodePotential env cache t]
  omega

/-- Main single-edge preservation lemma: relaxing the edge `u → v` while
expanding the cached node `u` preserves the invariant (with all the framing
facts of `StepSpec`) and leaves the edge `u → v` relaxed. -/
theorem relaxEdge_spec (env : SearchEnv) (u v : Nat) (st : SearchState)
    (hwf : WFEnv env) (hinv : InvCore env st) (hu : u < env.n)
    (hvnb : v ∈ env.neighbors u) (hexp : expandCond env u = true)
    (hcu : ∃ ndu, st.cache u = some ndu) :
    StepSpec env u st (relaxEdge env u v st) ∧
      RelaxedEdge env (relaxEdge env u v st).cache u v := by
  obtain ⟨ndu₀, hcu₀⟩ := hcu
  rcases relaxEdge_cases env u v st with ⟨heq, hinfo⟩ | ⟨ndu, p, hcu', hpen, hcond, heq⟩
  · rw [heq]
    refine ⟨stepSpec_refl hinv, ?_⟩
    intro q hq
    rcases hinfo with h | h | ⟨ndu, p', ndv, h1, h2, h3, h4⟩
    · rw [hcu₀] at h; exact absurd h (by simp)
    · rw [hq] at h; exact absurd h (by simp)
    · rw [hq] at h2
      injection h2 with h2
      subst h2
      exact ⟨ndv, ndu, h3, h1, h4⟩
  · rw [hcu₀] at hcu'
    injection hcu' with hcu'
    subst hcu'
    -- the updated tile is neither the expanded node nor the start tile
    have hvu : v ≠ u := by
      intro h
      subst h
      rcases hcond with h | ⟨ndv, h1, h2⟩
      · rw [hcu₀] at h; exact absurd h (by simp)
      · rw [hcu₀] at h1
        injection h1 with h1
        subst h1
        omega
    have hvstart : v ≠ env.start := by
      intro h
      subst h
      obtain ⟨nd0, hs1, hs2, _⟩ := hinv.startAnchor
      rcases hcond with h | ⟨ndv, h1, h2⟩
      · rw [hs1] at h; exact absurd h (by simp)
      · rw [hs1] at h1
        injection h1 with h1
        subst h1
        omega
    have hvn : v < env.n := (hwf.2 u hu).2 v hvnb
    have hcachev : ∀ ndv, st.cache v = some ndv → ndu₀.cost + p < ndv.cost := by
      intro ndv h
      rcases hcond with h' | ⟨ndv', h1, h2⟩
      · rw [h] at h'; exact absurd h' (by simp)
      · rw [h] at h1
        injection h1 with h1
        subst h1
        exact h2
    set nd' := updatedNode env u v ndu₀ p with hnd'
    have hnd'cost : nd'.cost = ndu₀.cost + p := rfl
    have hnd'from : nd'.fromIdx = some u := rfl
    set st' : SearchState :=
      { cache := Function.update st.cache v (some nd'),
        frontier := st.frontier ++ [v] } with hst'
    rw [heq]
    have hc'v : st'.cache v = some nd' := Function.update_same v (some nd') st.cache
    have hc'ne : ∀ t, t ≠ v → st'.cache t = st.cache t := fun t ht =>
      Function.update_noteq ht (some nd') st.cache
    have hcostMono : ∀ t nd, st.cache t = some nd →
        ∃ nd', st'.cache t = some nd' ∧ nd'.cost ≤ nd.cost := by
      intro t nd h
      by_cases ht : t = v
      · subst ht
        exact ⟨nd', hc'v, by have := hcachev nd h; omega⟩
      · exact ⟨nd, (hc'ne t ht).trans h, le_rfl⟩
    -- the old chain and exact path of `u` avoid `v`
    have hchainu : ∃ π, ChainToStart env st.cache u π := hinv.chains u ndu₀ hcu₀
    obtain ⟨πc, hπc⟩ := hchainu
    have hvπc : v ∉ πc := by
      intro hmem
      obtain ⟨ndw, hw1, hw2⟩ := hπc.chainNodesCostLe ndu₀ hcu₀ v hmem
      have := hcachev ndw hw1
      omega
    have hπc' : ChainToStart env st'.cache u πc :=
      hπc.transportChain fun w hw => hc'ne w (by
        rcases hw with rfl | hw
        · exact Ne.symm hvu
        · intro h; exact hvπc (h ▸ hw))
    have hchainv : ChainToStart env st'.cache v (u :: πc) := by
      refine ChainToStart.step v u πc ?_ hπc'
      exact ⟨nd', ndu₀, p, hc'v, hnd'from, (hc'ne u (Ne.symm hvu)).trans hcu₀, hpen,
        le_of_eq hnd'cost.symm, hvnb, hexp⟩
    obtain ⟨πe, hπe⟩ := hinv.exactPaths u ndu₀ hcu₀
    have hvπe : v ∉ πe := by
      intro hmem
      obtain ⟨ndw, hw1, hw2⟩ := hπe.pathNodesCostLe v hmem
      have := hcachev ndw hw1
      omega
    have hπe' : ExactPath env st'.cache u ndu₀.cost πe := hπe.transportPath hcostMono
    have hexactv : ExactPath env st'.cache v (ndu₀.cost + p) (v :: πe) :=
      ExactPath.step u v p ndu₀.cost πe nd' hπe' hvnb hpen hvπe hc'v
        (le_of_eq hnd'cost)
    have hcandle : ndu₀.cost + p ≤ totalPenaltySum env := hexactv.cost_le_total hwf
    refine ⟨⟨⟨?_, ?_, ?_, ?_, ?_, ?_⟩, ?_, ?_, ?_, ?_, ?_, ?_⟩, ?_⟩
    · -- startAnchor
      obtain ⟨nd0, h1, h2, h3⟩ := hinv.startAnchor
      exact ⟨nd0, (hc'ne env.start (Ne.symm hvstart)).trans h1, h2, h3⟩
    · -- cacheRange
      intro t nd h
      by_cases ht : t = v
      · exact ht ▸ hvn
      · exact hinv.cacheRange t nd ((hc'ne t ht).symm.trans h)
    · -- frontierRange
      intro x hx
      rcases List.mem_append.mp hx with hx | hx
      · exact hinv.frontierRange x hx
      · rw [List.mem_singleton.mp hx]; exact hvn
    · -- frontierCached
      intro x hx
      rcases List.mem_append.mp hx with hx | hx
      · obtain ⟨nd, hnd⟩ := hinv.frontierCached x hx
        obtain ⟨nd2, h2, _⟩ := hcostMono x nd hnd
        exact ⟨nd2, h2⟩
      · rw [List.mem_singleton.mp hx]
        exact ⟨nd', hc'v⟩
    · -- chains
      intro t nd h
      by_cases ht : t = v
      · exact ht ▸ ⟨u :: πc, hchainv⟩
      · have hold : st.cache t = some nd := (hc'ne t ht).symm.trans h
        obtain ⟨πt, hπt⟩ := hinv.chains t nd hold
        by_cases hvmem : v ∈ πt
        · obtain ⟨σ, τ, hστ, hvσ⟩ := mem_first_split hvmem
          subst hστ
          refine ⟨σ ++ v :: (u :: πc), ?_⟩
          refine hchainv.splice ?_ hπt ?_
          · rcases hcond with h' | ⟨ndv, h1, h2⟩
            · obtain ⟨ndw, hw1, _⟩ := hπt.chainNodesCostLe nd hold v hvmem
              rw [h'] at hw1; exact absurd hw1 (by simp)
            · exact ⟨ndv, nd', h1, hc'v, by omega⟩
          · intro w hw
            refine hc'ne w ?_
            rcases hw with rfl | hw
            · exact ht
            · intro hc; exact hvσ (hc ▸ hw)
        · refine ⟨πt, hπt.transportChain fun w hw => hc'ne w ?_⟩
          rcases hw with rfl | hw
          · exact ht
          · intro hc; exact hvmem (hc ▸ hw)
    · -- exactPaths
      intro t nd h
      by_cases ht : t = v
      · refine ⟨v :: πe, ?_⟩
        have h' : st'.cache v = some nd := by rw [← ht]; exact h
        rw [hc'v] at h'
        injection h' with h'
        rw [ht, ← h', hnd'cost]
        exact hexactv
      · have hold : st.cache t = some nd := (hc'ne t ht).symm.trans h
        obtain ⟨πt, hπt⟩ := hinv.exactPaths t nd hold
        exact ⟨πt, hπt.transportPath hcostMono⟩
    · -- touchedEnqueued
      intro t
      by_cases ht : t = v
      · exact Or.inr (ht ▸ List.mem_append_right _ (List.mem_singleton_self v))
      · exact Or.inl (hc'ne t ht)
    · exact hcostMono
    · -- frontierMono
      exact fun x hx => List.mem_append_left _ hx
    · -- sourceFixed
      exact hc'ne u (Ne.symm hvu)
    · -- measureLe
      have hpot := potentialSum_update env st.cache hvn nd'
      have hpotv : nd'.cost < nodePotential env st.cache v := by
        have hle : nd'.cost ≤ totalPenaltySum env := by
          rw [hnd'cost]; exact hcandle
        cases hcv : st.cache v with
        | none =>
          have heq2 : nodePotential env st.cache v = totalPenaltySum env + 1 := by
            simp [nodePotential, hcv]
          omega
        | some ndv =>
          have heq2 : nodePotential env st.cache v = ndv.cost := by
            simp [nodePotential, hcv]
          have := hcachev ndv hcv
          rw [heq2, hnd'cost]
          omega
      have hfr : st'.frontier = st.frontier ++ [v] := rfl
      have hca : st'.cache = Function.update st.cache v (some nd') := rfl
      rw [stateMeasure, stateMeasure, hfr, hca]
      simp only [List.length_append, List.length_singleton]
      omega
    · -- relaxKeep
      intro w hw p' hp'
      obtain ⟨ndw, ndu', h1, h2, h3⟩ := hw p' hp'
      rw [hcu₀] at h2
      injection h2 with h2
      subst h2
      by_cases hwv : w = v
      · subst hwv
        rw [hpen] at hp'
        injection hp' with hp'
        subst hp'
        exact ⟨nd', ndu₀, hc'v, (hc'ne u (Ne.symm hvu)).trans hcu₀, le_of_eq hnd'cost⟩
      · exact ⟨ndw, ndu₀, (hc'ne w hwv).trans h1, (hc'ne u (Ne.symm hvu)).trans hcu₀, h3⟩
    · -- the freshly relaxed edge
      intro p' hp'
      rw [hpen] at hp'
      injection hp' with hp'
      subst hp'
      exact ⟨nd', ndu₀, hc'v, (hc'ne u (Ne.symm hvu)).trans hcu₀, le_of_eq hnd'cost⟩

/-- Folding `relaxEdge` over any sublist of `u`'s neighbors yields a
`StepSpec` and leaves every processed edge relaxed. -/
theorem foldRelax_spec (env : SearchEnv) (u : Nat) (hwf : WFEnv env) (hu : u < env.n)
    (hexp : expandCond env u = true) :
    ∀ (l : List Nat) (st : SearchState), (∀ v ∈ l, v ∈ env.neighbors u) →
      InvCore env st → (∃ ndu, st.cache u = some ndu) →
      StepSpec env u st (l.foldl (fun s v => relaxEdge env u v s) st) ∧
        ∀ v ∈ l, RelaxedEdge env (l.foldl (fun s v => relaxEdge env u v s) st).cache u v := by
  intro l
  induction l with
  | nil =>
    intro st _ hinv _
    exact ⟨stepSpec_refl hinv, by simp⟩
  | cons v rest ih =>
    intro st hmem hinv hcu
    obtain ⟨hstep, hrel⟩ :=
      relaxEdge_spec env u v st hwf hinv hu (hmem v (List.mem_cons_self _ _)) hexp hcu
    obtain ⟨hstep', hrel'⟩ := ih (relaxEdge env u v st)
      (fun w hw => hmem w (List.mem_cons_of_mem _ hw)) hstep.inv
      (by obtain ⟨ndu, h⟩ := hcu; exact ⟨ndu, hstep.sourceFixed.trans h⟩)
    refine ⟨hstep.trans hstep', fun w hw => ?_⟩
    rcases List.mem_cons.mp hw with rfl | hw
    · exact hstep'.relaxKeep w hrel
    · exact hrel' w hw

/-- Expanding a cached node via `checkAdjacentNodes` preserves the invariant
and settles the node. -/
theorem checkAdjacentNodes_spec (env : SearchEnv) (u : Nat) (st : SearchState)
    (hwf : WFEnv env) (hinv : InvCore env st) (hu : u < env.n)
    (hexp : expandCond env u = true) (hcu : ∃ ndu, st.cache u = some ndu) :
    StepSpec env u st (checkAdjacentNodes env u st) ∧
      SettledNode env (checkAdjacentNodes env u st).cache u := by
  obtain ⟨hstep, hrel⟩ :=
    foldRelax_spec env u hwf hu hexp (env.neighbors u) st (fun _ hv => hv) hinv hcu
  exact ⟨hstep, fun _ v hv => hrel v hv⟩

/-- Popping one frontier node and processing it via the policy hook preserves
the invariants and strictly decreases the termination measure. -/
theorem popStep_spec (env : SearchEnv) (u : Nat) (rest : List Nat) (st : SearchState)
    (hwf : WFEnv env) (hinv : InvCore env st) (hset : Settledness env st)
    (hfr : st.frontier = u :: rest) :
    InvCore env (processCurrentNode env u { st with frontier := rest }) ∧
      Settledness env (processCurrentNode env u { st with frontier := rest }) ∧
      stateMeasure env (processCurrentNode env u { st with frontier := rest })
        < stateMeasure env st := by
  have hu : u < env.n := hinv.frontierRange u (by rw [hfr]; exact List.mem_cons_self _ _)
  have hcu : ∃ nd, st.cache u = some nd :=
    hinv.frontierCached u (by rw [hfr]; exact List.mem_cons_self _ _)
  set st1 : SearchState := { st with frontier := rest } with hst1
  have hinv1 : InvCore env st1 := by
    refine ⟨hinv.startAnchor, hinv.cacheRange, ?_, ?_, hinv.chains, hinv.exactPaths⟩
    · exact fun x hx => hinv.frontierRange x (by rw [hfr]; exact List.mem_cons_of_mem _ hx)
    · exact fun x hx => hinv.frontierCached x (by rw [hfr]; exact List.mem_cons_of_mem _ hx)
  have hm1 : stateMeasure env st1 < stateMeasure env st := by
    rw [stateMeasure, stateMeasure, hfr]
    simp only [hst1, List.length_cons]
    omega
  rw [processCurrentNode]
  by_cases hexp : expandCond env u = true
  · rw [if_pos hexp]
    obtain ⟨hstep, hsettledu⟩ := checkAdjacentNodes_spec env u st1 hwf hinv1 hu hexp hcu
    refine ⟨hstep.inv, ?_, lt_of_le_of_lt hstep.measureLe hm1⟩
    intro t nd hct
    rcases hstep.touchedEnqueued t with hsame | hfr2
    · by_cases htu : t = u
      · exact Or.inr (htu ▸ hsettledu)
      · have hst1c : st1.cache = st.cache := rfl
        have hold : st.cache t = some nd := by rw [← hst1c, ← hsame]; exact hct
        rcases hset t nd hold with hmem | hsettled
        · rw [hfr] at hmem
          rcases List.mem_cons.mp hmem with rfl | hmem
          · exact absurd rfl htu
          · exact Or.inl (hstep.frontierMono t hmem)
        · refine Or.inr fun hexpt v hv p hp => ?_
          obtain ⟨ndv, ndt, h1, h2, h3⟩ := hsettled hexpt v hv p hp
          obtain ⟨ndv', h1', hle'⟩ := hstep.costMono v ndv h1
          exact ⟨ndv', ndt, h1', hsame.trans h2, by omega⟩
    · exact Or.inl hfr2
  · rw [if_neg hexp]
    refine ⟨hinv1, ?_, hm1⟩
    intro t nd hct
    by_cases htu : t = u
    · refine Or.inr fun hexpt => ?_
      rw [htu] at hexpt
      exact absurd hexpt hexp
    · rcases hset t nd hct with hmem | hsettled
      · rw [hfr] at hmem
        rcases List.mem_cons.mp hmem with rfl | hmem
        · exact absurd rfl htu
        · exact Or.inl hmem
      · exact Or.inr hsettled

theorem processWorldMapLoop_succ_nil (env : SearchEnv) (fuel : Nat) (st : SearchState)
    (hfr : st.frontier = []) : processWorldMapLoop env (fuel + 1) st = st := by
  rw [processWorldMapLoop, hfr]

theorem processWorldMapLoop_succ_cons (env : SearchEnv) (fuel : Nat) (st : SearchState)
    (u : Nat) (rest : List Nat) (hfr : st.frontier = u :: rest) :
    processWorldMapLoop env (fuel + 1) st =
      processWorldMapLoop env fuel (processCurrentNode env u { st with frontier := rest }) := by
  rw [processWorldMapLoop, hfr]

/-- The relaxation loop preserves the invariants, and empties the frontier
whenever the fuel is at least the termination measure. -/
theorem processWorldMapLoop_spec (env : SearchEnv) (hwf : WFEnv env) :
    ∀ (fuel : Nat) (st : SearchState), InvCore env st → Settledness env st →
      InvCore env (processWorldMapLoop env fuel st) ∧
        Settledness env (processWorldMapLoop env fuel st) ∧
        (stateMeasure env st ≤ fuel → (processWorldMapLoop env fuel st).frontier = []) := by
  intro fuel
  induction fuel with
  | zero =>
    intro st hinv hset
    refine ⟨hinv, hset, fun hm => ?_⟩
    rw [processWorldMapLoop]
    rw [stateMeasure] at hm
    exact List.length_eq_zero.mp (by omega)
  | succ fuel ih =>
    intro st hinv hset
    cases hfr : st.frontier with
    | nil =>
      rw [processWorldMapLoop_succ_nil env fuel st hfr]
      exact ⟨hinv, hset, fun _ => hfr⟩
    | cons u rest =>
      rw [processWorldMapLoop_succ_cons env fuel st u rest hfr]
      obtain ⟨hinv2, hset2, hm2⟩ := popStep_spec env u rest st hwf hinv hset hfr
      obtain ⟨hi, hs, hf⟩ :=
        ih (processCurrentNode env u { st with frontier := rest }) hinv2 hset2
      exact ⟨hi, hs, fun hm => hf (by omega)⟩

/-- The cleared-and-seeded initial state satisfies the invariants. -/
theorem initState_spec (env : SearchEnv) (hwf : WFEnv env) :
    InvCore env (initState env) ∧ Settledness env (initState env) := by
  have hstart : (initState env).cache env.start =
      some ⟨0, none, env.objectAt env.start, env.startRemaining⟩ := by
    simp [initState]
  have hother : ∀ t, t ≠ env.start → (initState env).cache t = none := by
    intro t ht
    simp [initState, Function.update_noteq ht]
  have hcached : ∀ t nd, (initState env).cache t = some nd → t = env.start := by
    intro t nd h
    by_contra ht
    rw [hother t ht] at h
    exact absurd h (by simp)
  refine ⟨⟨⟨_, hstart, rfl, rfl⟩, ?_, ?_, ?_, ?_, ?_⟩, ?_⟩
  · intro t nd h
    rw [hcached t nd h]
    exact hwf.1
  · intro x hx
    rw [List.mem_singleton.mp hx]
    exact hwf.1
  · intro x hx
    rw [List.mem_singleton.mp hx]
    exact ⟨_, hstart⟩
  · intro t nd h
    rw [hcached t nd h]
    exact ⟨[], ChainToStart.base⟩
  · intro t nd h
    have ht := hcached t nd h
    refine ⟨[env.start], ?_⟩
    have h' : (initState env).cache env.start = some nd := by rw [← ht]; exact h
    rw [hstart] at h'
    injection h' with h'
    rw [ht, ← h']
    exact ExactPath.base _ hstart rfl
  · intro t nd h
    exact Or.inl (by rw [hcached t nd h]; exact List.mem_singleton_self _)

/-- At quiescence (empty frontier), every predecessor chain telescopes into a
`PredChainSum`: each node's cumulative cost is exactly its predecessor's cost
plus the step penalty, and the total is the sum of the penalties. -/
theorem chain_to_predChainSum (env : SearchEnv) (st : SearchState)
    (hset : Settledness env st) (hfr : st.frontier = [])
    (hanchor : ∃ nd0, st.cache env.start = some nd0 ∧ nd0.cost = 0 ∧ nd0.fromIdx = none) :
    ∀ {t : Nat} {π : List Nat}, ChainToStart env st.cache t π →
      ∀ ndt, st.cache t = some ndt → PredChainSum env st.cache t ndt.cost := by
  intro t π hchain
  induction hchain with
  | base =>
    intro ndt hct
    obtain ⟨nd0, h1, h2, h3⟩ := hanchor
    rw [h1] at hct
    injection hct with hct
    rw [← hct, h2]
    exact PredChainSum.base nd0 h1 h3 h2
  | step t u rest hlink _ ih =>
    intro ndt hct
    obtain ⟨ndt', ndu, p, h1, h2, h3, h4, h5, h6, h7⟩ := hlink
    rw [hct] at h1
    injection h1 with h1
    subst h1
    have hsettled : SettledNode env st.cache u := by
      rcases hset u ndu h3 with hmem | hs
      · rw [hfr] at hmem
        exact absurd hmem (List.not_mem_nil u)
      · exact hs
    obtain ⟨ndv', ndu', hh1, hh2, hh3⟩ := hsettled h7 t h6 p h4
    rw [hct] at hh1
    injection hh1 with hh1
    rw [h3] at hh2
    injection hh2 with hh2
    subst hh1
    subst hh2
    have hcost : ndt.cost = ndu.cost + p := by omega
    have hbase := ih ndu h3
    rw [hcost]
    exact PredChainSum.step u t p ndu.cost ndt hbase hct h2 h4 hcost

/-- The start tile stays anchored at cost `0` with no predecessor (needed
without any well-formedness hypothesis). -/
def StartAnchored (env : SearchEnv) (cache : Nat → Option WorldNode) : Prop :=
  ∃ nd, cache env.start = some nd ∧ nd.cost = 0 ∧ nd.fromIdx = none

theorem relaxEdge_startAnchored (env : SearchEnv) (u v : Nat) (st : SearchState)
    (h : StartAnchored env st.cache) : StartAnchored env (relaxEdge env u v st).cache := by
  rcases relaxEdge_cases env u v st with ⟨heq, _⟩ | ⟨ndu, p, hcu, hpen, hcond, heq⟩
  · rw [heq]; exact h
  · obtain ⟨nd0, h1, h2, h3⟩ := h
    have hvs : v ≠ env.start := by
      intro hv
      subst hv
      rcases hcond with hc | ⟨ndv, hc1, hc2⟩
      · rw [h1] at hc; exact absurd hc (by simp)
      · rw [h1] at hc1
        injection hc1 with hc1
        subst hc1
        omega
    rw [heq]
    exact ⟨nd0, (Function.update_noteq (Ne.symm hvs) _ _).trans h1, h2, h3⟩

theorem foldRelax_startAnchored (env : SearchEnv) (u : Nat) :
    ∀ (l : List Nat) (st : SearchState), StartAnchored env st.cache →
      StartAnchored env ((l.foldl (fun s v => relaxEdge env u v s) st)).cache := by
  intro l
  induction l with
  | nil => exact fun st h => h
  | cons v rest ih =>
    intro st h
    exact ih (relaxEdge env u v st) (relaxEdge_startAnchored env u v st h)

theorem processCurrentNode_startAnchored (env : SearchEnv) (u : Nat) (st : SearchState)
    (h : StartAnchored env st.cache) :
    StartAnchored env (processCurrentNode env u st).cache := by
  rw [processCurrentNode]
  by_cases hexp : expandCond env u = true
  · rw [if_pos hexp]
    exact foldRelax_startAnchored env u (env.neighbors u) st h
  · rw [if_neg hexp]
    exact h

theorem processWorldMapLoop_startAnchored (env : SearchEnv) :
    ∀ (fuel : Nat) (st : SearchState), StartAnchored env st.cache →
      StartAnchored env (processWorldMapLoop env fuel st).cache := by
  intro fuel
  induction fuel with
  | zero => exact fun st h => h
  | succ fuel ih =>
    intro st h
    cases hfr : st.frontier with
    | nil => rw [processWorldMapLoop_succ_nil env fuel st hfr]; exact h
    | cons u rest =>
      rw [processWorldMapLoop_succ_cons env fuel st u rest hfr]
      exact ih _ (processCurrentNode_startAnchored env u _ h)

theorem processWorldMap_startAnchored (env : SearchEnv) :
    StartAnchored env (processWorldMap env).cache := by
  refine processWorldMapLoop_startAnchored env _ _
    ⟨⟨0, none, env.objectAt env.start, env.startRemaining⟩, ?_, rfl, rfl⟩
  simp [initState]

/-- A 3-tile line `0 — 1 — 2` with unit penalties, used as a concrete,
fully-computable instance of the engine. -/
def envLine : SearchEnv :=
  { n := 3
    neighbors := fun u => match u with | 0 => [1] | 1 => [0, 2] | 2 => [1] | _ => []
    penalty := fun u v =>
      match u, v with
      | 0, 1 => some 1 | 1, 0 => some 1 | 1, 2 => some 1 | 2, 1 => some 1
      | _, _ => none
    expandable := fun _ => true
    objectAt := fun _ => 0
    start := 0
    startRemaining := 10
    maxMovePoints := 10 }

/-- A 2-tile map whose only edge has movement penalty `0`, exhibiting a
predecessor chain with equal (not strictly decreasing) cumulative costs. -/
def envZero : SearchEnv :=
  { n := 2
    neighbors := fun u => match u with | 0 => [1] | _ => []
    penalty := fun u v => match u, v with | 0, 1 => some 0 | _, _ => none
    expandable := fun _ => true
    objectAt := fun _ => 0
    start := 0
    startRemaining := 5
    maxMovePoints := 7 }

/-- A 2-tile map with no edges at all: tile `1` is unreachable. -/
def envIsolated : SearchEnv :=
  { n := 2
    neighbors := fun _ => []
    penalty := fun _ _ => none
    expandable := fun _ => true
    objectAt := fun _ => 0
    start := 0
    startRemaining := 5
    maxMovePoints := 7 }

/-- Claim C8: `processWorldMap` terminates on every finite (well-formed) map:
since penalties are non-negative and a node is only rewritten and re-enqueued
when its candidate cumulative cost strictly decreases, the label-correcting
frontier loop empties after finitely many expansions (the initial
`stateMeasure` bounds them). -/
theorem processWorldMap_terminates (env : SearchEnv) (hwf : WFEnv env) :
    (processWorldMap env).frontier = [] ∧
      ∃ fuel, (processWorldMapLoop env fuel (initState env)).frontier = [] := by
  obtain ⟨hinv0, hset0⟩ := initState_spec env hwf
  obtain ⟨_, _, hdone⟩ := processWorldMapLoop_spec env hwf
    (stateMeasure env (initState env)) (initState env) hinv0 hset0
  exact ⟨hdone le_rfl, _, hdone le_rfl⟩

/-- Witness for claim C8: the loop completes on the concrete 3-tile line map. -/
theorem processWorldMap_terminates_witness : (processWorldMap envLine).frontier = [] :=
  (processWorldMap_terminates envLine (by decide)).1

/-- Claim C3, amended: after the completed recompute, every tile whose
cumulative cost is set has a chain of predecessor links terminating at the
start tile along which each node's cumulative cost equals its predecessor's
cumulative cost plus the step's movement penalty (so the costs are
non-increasing toward the start, and strictly decreasing across every step
whose penalty is positive), and the tile's cumulative cost equals the sum of
the per-step penalties along that chain. -/
theorem processWorldMap_cost_eq_chain_sum (env : SearchEnv) (hwf : WFEnv env) :
    ∀ t nd, (processWorldMap env).cache t = some nd →
      PredChainSum env (processWorldMap env).cache t nd.cost := by
  obtain ⟨hinv0, hset0⟩ := initState_spec env hwf
  obtain ⟨hinv, hset, hdone⟩ := processWorldMapLoop_spec env hwf
    (stateMeasure env (initState env)) (initState env) hinv0 hset0
  intro t nd h
  obtain ⟨π, hπ⟩ := hinv.chains t nd h
  exact chain_to_predChainSum env _ hset (hdone le_rfl) hinv.startAnchor hπ nd h

/-- Witness for claim C3 as amended: on the 3-tile line, tile `2` is cached with
cumulative cost `2` and carries the telescoping predecessor chain. -/
theorem processWorldMap_cost_eq_chain_sum_witness :
    PredChainSum envLine (processWorldMap envLine).cache 2 2 := by
  have h : (processWorldMap envLine).cache 2 = some ⟨2, some 1, 0, 8⟩ := by decide
  exact processWorldMap_cost_eq_chain_sum envLine (by decide) 2 ⟨2, some 1, 0, 8⟩ h

/-- Counterexample to claim C3 as stated: a completed recompute on the 2-tile map whose only
edge has penalty `0` caches tile `1` (cumulative cost `0`, predecessor the
start tile), yet tile `1` admits *no* predecessor chain of strictly
decreasing cumulative cost terminating at the start — the equal-cost link
refutes the claim's "strictly decreasing" reading. -/
theorem strictChain_counterexample :
    (processWorldMap envZero).frontier = [] ∧
      (processWorldMap envZero).cache 1 = some ⟨0, some 0, 0, 5⟩ ∧
      ¬ ∃ c, StrictChainSum envZero (processWorldMap envZero).cache 1 c := by
  refine ⟨by decide, by decide, ?_⟩
  rintro ⟨c, h⟩
  have hv : (processWorldMap envZero).cache 1 = some ⟨0, some 0, 0, 5⟩ := by decide
  have hu : (processWorldMap envZero).cache 0 = some ⟨0, none, 0, 5⟩ := by decide
  cases h with
  | step u v p c ndu ndv hchain h1 h2 h3 h4 h5 =>
    rw [hv] at h1
    injection h1 with h1
    rw [← h1] at h2 h4
    simp only [WorldNode.mk.injEq] at h2 h4
    have hu0 : u = 0 := by
      have := h2
      simp at this
      omega
    rw [hu0, hu] at h3
    injection h3 with h3
    rw [← h3] at h4
    simp at h4

/-- Claim C6: `buildPath` applied to the start tile returns the empty route,
and `getDistance` from the start tile to itself returns `0` after the
recompute seeded there. -/
theorem buildPath_getDistance_start :
    (∀ (cache : Nat → Option WorldNode) (start fuel : Nat),
        buildPath cache start start fuel = []) ∧
      ∀ env : SearchEnv, aiGetDistance env env.start = 0 := by
  constructor
  · intro cache start fuel
    cases fuel with
    | zero => rfl
    | succ f => simp [buildPath, buildPathWalk]
  · intro env
    obtain ⟨nd, h1, h2, _⟩ := processWorldMap_startAnchored env
    simp [aiGetDistance, getDistanceFromCache, h1, h2]

/-- Claim C7: the engine signals no errors — for a target never relaxed during
the recompute, `buildPath` returns the empty route and `getDistance` returns
the maximum/sentinel "uncomputed" cost (both functions are total). -/
theorem unreachable_tile_sentinel (env : SearchEnv) (targetIndex fuel : Nat)
    (h : (processWorldMap env).cache targetIndex = none) :
    buildPath (processWorldMap env).cache env.start targetIndex fuel = [] ∧
      aiGetDistance env targetIndex = uncomputedCost := by
  constructor
  · cases fuel with
    | zero => rfl
    | succ f =>
      rw [buildPath, buildPathWalk]
      by_cases ht : targetIndex = env.start
      · rw [if_pos ht]
      · rw [if_neg ht, h]
  · simp [aiGetDistance, getDistanceFromCache, h]

/-- Witness for claim C7: tile `1` of the edgeless 2-tile map is unreachable;
its route is empty and its distance is the sentinel. -/
theorem unreachable_tile_sentinel_witness :
    buildPath (processWorldMap envIsolated).cache 0 1 5 = [] ∧
      aiGetDistance envIsolated 1 = uncomputedCost :=
  unreachable_tile_sentinel envIsolated 1 5 (by decide)

/-- The agent attributes sampled by `reEvaluateIfNeeded` (spec §3 "cached
agent snapshot"): position, faction color, movement points, pathfinding
skill; plus the AI-only attributes (army strength, spell points,
artifact-bag-full flag, cached Town Gate / Town Portal destinations). -/
structure HeroInfo where
  index : Nat
  color : Int
  remainingMovePoints : Nat
  maxMovePoints : Nat
  pathfindingSkill : Nat
  armyStrength : ℚ
  spellPoints : Nat
  isArtifactsBagFull : Bool
  townGateCastleIndex : Int
  townPortalCastleIndexes : List Int

/-- Constant `Color::NONE` (from the missing `color.h`; the numeral is irrelevant to
the claims). -/
def colorNone : Int := 0

/-- Constant `Skill::Level::EXPERT` (from the missing `skill.h`; the numeral is
irrelevant to the claims). -/
def expertSkillLevel : Nat := 4

/-- The cached state of a `PlayerWorldPathfinder`
(`world_pathfinding.h:96-105` plus the base `Pathfinder`'s start tile and
node cache, modelled from the spec): the agent snapshot used to decide
whether a recompute is needed, and the node cache. -/
structure PlayerWorldPathfinderState where
  pathStart : Int
  color : Int
  remainingMovePoints : Nat
  maxMovePoints : Nat
  pathfindingSkill : Nat
  cache : Nat → Option WorldNode

/-- The cached state of an `AIWorldPathfinder`
(`world_pathfinding.h:182-215` plus the base members at
`world_pathfinding.h:96-105`): the full agent snapshot, the two
configuration coefficients (`_minimalArmyStrengthAdvantage` and
`_spellPointsReserveRatio` — the latter field is named `spellPointsReserve`
here), and the node cache. -/
structure AIWorldPathfinderState where
  pathStart : Int
  color : Int
  remainingMovePoints : Nat
  maxMovePoints : Nat
  pathfindingSkill : Nat
  armyStrength : ℚ
  spellPoints : Nat
  isArtifactsBagFull : Bool
  townGateCastleIndex : Int
  townPortalCastleIndexes : List Int
  minimalArmyStrengthAdvantage : ℚ
  spellPointsReserve : ℚ
  cache : Nat → Option WorldNode

/-- Constructor `AIWorldPathfinder::AIWorldPathfinder(double advantage)`
(`world_pathfinding.h:128-130`) together with the member initializers at
`world_pathfinding.h:101-104` and `world_pathfinding.h:197-214`: stores the
advantage coefficient and leaves every other member at its default
(`_armyStrength = -1`, `_spellPoints = 0`, `_isArtifactsBagFull = false`,
`_townGateCastleIndex = -1`, empty town-portal list,
`_spellPointsReserveRatio = 0.5`); the base members default to
`Color::NONE`, zero movement points, `EXPERT` skill, and (modelled from the
spec) an unset start tile and an empty node cache. -/
def mkAIWorldPathfinder (advantage : ℚ) : AIWorldPathfinderState :=
  { pathStart := -1
    color := colorNone
    remainingMovePoints := 0
    maxMovePoints := 0
    pathfindingSkill := expertSkillLevel
    armyStrength := -1
    spellPoints := 0
    isArtifactsBagFull := false
    townGateCastleIndex := -1
    townPortalCastleIndexes := []
    minimalArmyStrengthAdvantage := advantage
    spellPointsReserve := 1 / 2
    cache := fun _ => none }

/-- Getter `AIWorldPathfinder::getMinimalArmyStrengthAdvantage`
(`world_pathfinding.h:162-165`). -/
def AIWorldPathfinderState.getMinimalArmyStrengthAdvantage
    (st : AIWorldPathfinderState) : ℚ :=
  st.minimalArmyStrengthAdvantage

/-- Getter `AIWorldPathfinder::getSpellPointsReserveRatio`
(`world_pathfinding.h:173-176`; identifier shortened). -/
def AIWorldPathfinderState.getSpellPointsReserve (st : AIWorldPathfinderState) : ℚ :=
  st.spellPointsReserve

/-- Modelled from the spec: the attribute diff of
`PlayerWorldPathfinder::reEvaluateIfNeeded` (`world_pathfinding.h:117`, body
in the missing `world_pathfinding.cpp`): position, faction, remaining and
maximum movement points, and skill are compared against the snapshot. -/
def playerNeedsRecompute (st : PlayerWorldPathfinderState) (hero : HeroInfo) : Prop :=
  st.pathStart ≠ (hero.index : Int) ∨ st.color ≠ hero.color ∨
    st.remainingMovePoints ≠ hero.remainingMovePoints ∨
    st.maxMovePoints ≠ hero.maxMovePoints ∨
    st.pathfindingSkill ≠ hero.pathfindingSkill

instance (st : PlayerWorldPathfinderState) (hero : HeroInfo) :
    Decidable (playerNeedsRecompute st hero) := by
  unfold playerNeedsRecompute; infer_instance

/-- Modelled from the spec: the attribute diff of
`AIWorldPathfinder::reEvaluateIfNeeded` (`world_pathfinding.h:138`, body in
the missing `world_pathfinding.cpp`): the player attributes plus army
strength, spell points, the artifact-bag-full flag and the cached teleport
destinations. -/
def aiNeedsRecompute (st : AIWorldPathfinderState) (hero : HeroInfo) : Prop :=
  st.pathStart ≠ (hero.index : Int) ∨ st.color ≠ hero.color ∨
    st.remainingMovePoints ≠ hero.remainingMovePoints ∨
    st.maxMovePoints ≠ hero.maxMovePoints ∨
    st.pathfindingSkill ≠ hero.pathfindingSkill ∨
    st.armyStrength ≠ hero.armyStrength ∨
    st.spellPoints ≠ hero.spellPoints ∨
    st.isArtifactsBagFull ≠ hero.isArtifactsBagFull ∨
    st.townGateCastleIndex ≠ hero.townGateCastleIndex ∨
    st.townPortalCastleIndexes ≠ hero.townPortalCastleIndexes

instance (st : AIWorldPathfinderState) (hero : HeroInfo) :
    Decidable (aiNeedsRecompute st hero) := by
  unfold aiNeedsRecompute; infer_instance

/-- Modelled from the spec: `PlayerWorldPathfinder::reEvaluateIfNeeded(hero)`
— on any attribute difference (or first call) re-capture the snapshot and run
a full `processWorldMap` over the current world (abstracted by `env`);
otherwise serve the existing cache untouched.  The returned flag records
whether a recompute was performed. -/
def PlayerWorldPathfinder.reEvaluateIfNeeded (env : SearchEnv)
    (st : PlayerWorldPathfinderState) (hero : HeroInfo) :
    PlayerWorldPathfinderState × Bool :=
  if playerNeedsRecompute st hero then
    ({ pathStart := (hero.index : Int)
       color := hero.color
       remainingMovePoints := hero.remainingMovePoints
       maxMovePoints := hero.maxMovePoints
       pathfindingSkill := hero.pathfindingSkill
       cache := (processWorldMap env).cache }, true)
  else (st, false)

/-- Modelled from the spec: `AIWorldPathfinder::reEvaluateIfNeeded(hero)` —
the AI-policy analogue with its richer snapshot. -/
def AIWorldPathfinder.reEvaluateIfNeeded (env : SearchEnv)
    (st : AIWorldPathfinderState) (hero : HeroInfo) :
    AIWorldPathfinderState × Bool :=
  if aiNeedsRecompute st hero then
    ({ st with
        pathStart := (hero.index : Int)
        color := hero.color
        remainingMovePoints := hero.remainingMovePoints
        maxMovePoints := hero.maxMovePoints
        pathfindingSkill := hero.pathfindingSkill
        armyStrength := hero.armyStrength
        spellPoints := hero.spellPoints
        isArtifactsBagFull := hero.isArtifactsBagFull
        townGateCastleIndex := hero.townGateCastleIndex
        townPortalCastleIndexes := hero.townPortalCastleIndexes
        cache := (processWorldMap env).cache }, true)
  else (st, false)

/-- Modelled from the spec: `AIWorldPathfinder::setMinimalArmyStrengthAdvantage`
(`world_pathfinding.h:169`, body in the missing `world_pathfinding.cpp`):
store the coefficient; a change of value invalidates the node cache
(passability decisions depend on it), an unchanged value is a no-op. -/
def AIWorldPathfinder.setMinimalArmyStrengthAdvantage
    (st : AIWorldPathfinderState) (advantage : ℚ) : AIWorldPathfinderState :=
  if st.minimalArmyStrengthAdvantage = advantage then st
  else { st with minimalArmyStrengthAdvantage := advantage, cache := fun _ => none }

/-- Modelled from the spec: `AIWorldPathfinder::setSpellPointsReserveRatio`
(`world_pathfinding.h:180`, body in the missing `world_pathfinding.cpp`;
identifier shortened): same store-and-invalidate-on-change behavior. -/
def AIWorldPathfinder.setSpellPointsReserve
    (st : AIWorldPathfinderState) (r : ℚ) : AIWorldPathfinderState :=
  if st.spellPointsReserve = r then st
  else { st with spellPointsReserve := r, cache := fun _ => none }

theorem player_reEval_noop (env : SearchEnv) (st : PlayerWorldPathfinderState)
    (hero : HeroInfo) (h : ¬ playerNeedsRecompute st hero) :
    PlayerWorldPathfinder.reEvaluateIfNeeded env st hero = (st, false) := by
  rw [PlayerWorldPathfinder.reEvaluateIfNeeded, if_neg h]

theorem ai_reEval_noop (env : SearchEnv) (st : AIWorldPathfinderState)
    (hero : HeroInfo) (h : ¬ aiNeedsRecompute st hero) :
    AIWorldPathfinder.reEvaluateIfNeeded env st hero = (st, false) := by
  rw [AIWorldPathfinder.reEvaluateIfNeeded, if_neg h]

theorem player_reEval_snapshot (env : SearchEnv) (st : PlayerWorldPathfinderState)
    (hero : HeroInfo) :
    ¬ playerNeedsRecompute (PlayerWorldPathfinder.reEvaluateIfNeeded env st hero).1 hero := by
  by_cases h : playerNeedsRecompute st hero
  · rw [PlayerWorldPathfinder.reEvaluateIfNeeded, if_pos h]
    simp [playerNeedsRecompute]
  · rw [PlayerWorldPathfinder.reEvaluateIfNeeded, if_neg h]
    exact h

theorem ai_reEval_snapshot (env : SearchEnv) (st : AIWorldPathfinderState)
    (hero : HeroInfo) :
    ¬ aiNeedsRecompute (AIWorldPathfinder.reEvaluateIfNeeded env st hero).1 hero := by
  by_cases h : aiNeedsRecompute st hero
  · rw [AIWorldPathfinder.reEvaluateIfNeeded, if_pos h]
    simp [aiNeedsRecompute]
  · rw [AIWorldPathfinder.reEvaluateIfNeeded, if_neg h]
    exact h

/-- Claim C4: with no change to any tracked agent attribute between the calls,
the second `reEvaluateIfNeeded` is a no-op: it returns the state of the first
call unchanged (node cache included) and reports that no recompute was
performed — for the player policy and for the AI policy alike. -/
theorem reEvaluateIfNeeded_idempotent (env : SearchEnv)
    (stP : PlayerWorldPathfinderState) (stA : AIWorldPathfinderState)
    (hero : HeroInfo) :
    PlayerWorldPathfinder.reEvaluateIfNeeded env
        (PlayerWorldPathfinder.reEvaluateIfNeeded env stP hero).1 hero
      = ((PlayerWorldPathfinder.reEvaluateIfNeeded env stP hero).1, false) ∧
    AIWorldPathfinder.reEvaluateIfNeeded env
        (AIWorldPathfinder.reEvaluateIfNeeded env stA hero).1 hero
      = ((AIWorldPathfinder.reEvaluateIfNeeded env stA hero).1, false) :=
  ⟨player_reEval_noop env _ hero (player_reEval_snapshot env stP hero),
    ai_reEval_noop env _ hero (ai_reEval_snapshot env stA hero)⟩

/-- The agent-snapshot fields of the AI pathfinder state other than the two
configuration coefficients and the cache. -/
def sameSnapshotFields (st st' : AIWorldPathfinderState) : Prop :=
  st'.pathStart = st.pathStart ∧ st'.color = st.color ∧
    st'.remainingMovePoints = st.remainingMovePoints ∧
    st'.maxMovePoints = st.maxMovePoints ∧
    st'.pathfindingSkill = st.pathfindingSkill ∧
    st'.armyStrength = st.armyStrength ∧
    st'.spellPoints = st.spellPoints ∧
    st'.isArtifactsBagFull = st.isArtifactsBagFull ∧
    st'.townGateCastleIndex = st.townGateCastleIndex ∧
    st'.townPortalCastleIndexes = st.townPortalCastleIndexes

/-- Claim C9: each setter stores the given value and has no other effect,
except that a call that changes the stored value clears the node cache
(invalidating entries computed under the old coefficient), while a call with
an unchanged value leaves the state — cache included — untouched. -/
theorem set_accessors_spec (st : AIWorldPathfinderState) (a r : ℚ) :
    ((AIWorldPathfinder.setMinimalArmyStrengthAdvantage st a).getMinimalArmyStrengthAdvantage
        = a ∧
      (st.minimalArmyStrengthAdvantage = a →
        AIWorldPathfinder.setMinimalArmyStrengthAdvantage st a = st) ∧
      (st.minimalArmyStrengthAdvantage ≠ a →
        (AIWorldPathfinder.setMinimalArmyStrengthAdvantage st a).cache = (fun _ => none) ∧
          sameSnapshotFields st (AIWorldPathfinder.setMinimalArmyStrengthAdvantage st a) ∧
          (AIWorldPathfinder.setMinimalArmyStrengthAdvantage st a).spellPointsReserve
            = st.spellPointsReserve)) ∧
    ((AIWorldPathfinder.setSpellPointsReserve st r).getSpellPointsReserve = r ∧
      (st.spellPointsReserve = r → AIWorldPathfinder.setSpellPointsReserve st r = st) ∧
      (st.spellPointsReserve ≠ r →
        (AIWorldPathfinder.setSpellPointsReserve st r).cache = (fun _ => none) ∧
          sameSnapshotFields st (AIWorldPathfinder.setSpellPointsReserve st r) ∧
          (AIWorldPathfinder.setSpellPointsReserve st r).minimalArmyStrengthAdvantage
            = st.minimalArmyStrengthAdvantage)) := by
  constructor
  · refine ⟨?_, ?_, ?_⟩
    · by_cases h : st.minimalArmyStrengthAdvantage = a

      · rw [AIWorldPathfinder.setMinimalArmyStrengthAdvantage, if_pos h]
        exact h
      · rw [AIWorldPathfinder.setMinimalArmyStrengthAdvantage, if_neg h]
        rfl
    · intro h
      rw [AIWorldPathfinder.setMinimalArmyStrengthAdvantage, if_pos h]
    · intro h
      rw [AIWorldPathfinder.setMinimalArmyStrengthAdvantage, if_neg h]
      refine ⟨rfl, ?_, rfl⟩
      unfold sameSnapshotFields
      exact ⟨rfl, rfl, rfl, rfl, rfl, rfl, rfl, rfl, rfl, rfl⟩
  · refine ⟨?_, ?_, ?_⟩
    · by_cases h : st.spellPointsReserve = r
      · rw [AIWorldPathfinder.setSpellPointsReserve, if_pos h]
        exact h
      · rw [AIWorldPathfinder.setSpellPointsReserve, if_neg h]
        rfl
    · intro h
      rw [AIWorldPathfinder.setSpellPointsReserve, if_pos h]
    · intro h
      rw [AIWorldPathfinder.setSpellPointsReserve, if_neg h]
      refine ⟨rfl, ?_, rfl⟩
      unfold sameSnapshotFields
      exact ⟨rfl, rfl, rfl, rfl, rfl, rfl, rfl, rfl, rfl, rfl⟩

/-- Witness for claim C9: a changing call of each setter on a freshly
constructed pathfinder clears the cache. -/
theorem set_accessors_spec_witness :
    (AIWorldPathfinder.setMinimalArmyStrengthAdvantage
        (mkAIWorldPathfinder 1) 2).cache = (fun _ => none) ∧
      (AIWorldPathfinder.setSpellPointsReserve
        (mkAIWorldPathfinder 1) (1 / 4)).cache = (fun _ => none) := by
  have h := set_accessors_spec (mkAIWorldPathfinder 1) 2 (1 / 4)
  refine ⟨(h.1.2.2 ?_).1, (h.2.2.2 ?_).1⟩
  · show (1 : ℚ) ≠ 2
    norm_num
  · show (1 / 2 : ℚ) ≠ 1 / 4
    norm_num

/-- Claim C10: a freshly constructed `AIWorldPathfinder(advantage)` reports
`getMinimalArmyStrengthAdvantage() = advantage` and a spell-points
reservation factor of `0.5`, holds the sentinel `-1` as cached army strength,
and therefore its first `reEvaluateIfNeeded` (for any hero, whose army
strength is non-negative) performs a recompute. -/
theorem aiConstructor_spec (advantage : ℚ) :
    (mkAIWorldPathfinder advantage).getMinimalArmyStrengthAdvantage = advantage ∧
      (mkAIWorldPathfinder advantage).getSpellPointsReserve = 1 / 2 ∧
      (mkAIWorldPathfinder advantage).armyStrength = -1 ∧
      ∀ (env : SearchEnv) (hero : HeroInfo), 0 ≤ hero.armyStrength →
        (AIWorldPathfinder.reEvaluateIfNeeded env
          (mkAIWorldPathfinder advantage) hero).2 = true := by
  refine ⟨rfl, rfl, rfl, ?_⟩
  intro env hero hstr
  have hne : aiNeedsRecompute (mkAIWorldPathfinder advantage) hero := by
    refine Or.inr (Or.inr (Or.inr (Or.inr (Or.inr (Or.inl ?_)))))
    show (mkAIWorldPathfinder advantage).armyStrength ≠ hero.armyStrength
    intro heq
    rw [show (mkAIWorldPathfinder advantage).armyStrength = -1 from rfl] at heq
    rw [← heq] at hstr
    norm_num at hstr
  rw [AIWorldPathfinder.reEvaluateIfNeeded, if_pos hne]

/-- A concrete hero used to witness the constructor claim. -/
def demoHero : HeroInfo :=
  { index := 4
    color := 1
    remainingMovePoints := 100
    maxMovePoints := 1000
    pathfindingSkill := 4
    armyStrength := 50
    spellPoints := 10
    isArtifactsBagFull := false
    townGateCastleIndex := -1
    townPortalCastleIndexes := [] }

/-- Witness for claim C10: the first re-evaluation of a freshly constructed
pathfinder recomputes. -/
theorem aiConstructor_spec_witness :
    (AIWorldPathfinder.reEvaluateIfNeeded envLine
      (mkAIWorldPathfinder 2) demoHero).2 = true :=
  (aiConstructor_spec 2).2.2.2 envLine demoHero (by norm_num [demoHero])

end WorldPathfinding
